import Mathlib

/-!
Verification of `cleanup_root.py`, a one-off maintenance script that moves
root-level files into hardcoded target subdirectories (or deletes the root
copy when the target already holds a file of that name).

The filesystem is shallowly embedded as an association list from path
strings to entries (regular file with abstract content, or directory).
The script's loop is embedded as explicit state passing; the OS calls
`os.remove` and `os.rename` are fallible (`Except`), mirroring the
uncaught-exception behaviour of the Python code.
-/

set_option maxHeartbeats 4000000
set_option maxRecDepth 100000

namespace CleanupRoot

/-- A filesystem entry: a regular file with abstract content, or a directory.
The script is content-agnostic, so file content is an opaque `Nat`. -/
inductive Entry : Type where
  | file : Nat → Entry
  | dir : Entry
deriving DecidableEq, Repr

/-- A filesystem: an association list from path to entry.  Lookup takes the
first binding for a key. -/
abbrev FS := List (String × Entry)

/-- Look up the entry stored at path `p`. -/
def fsGet : FS → String → Option Entry
  | [], _ => Option.none
  | (k, e) :: rest, p => if k = p then Option.some e else fsGet rest p

/-- `os.path.exists`: true when any entry (file or directory) is at `p`. -/
def pathExists (fs : FS) (p : String) : Bool := (fsGet fs p).isSome

/-- `os.path.isfile`: true only for a regular-file entry at `p`. -/
def isFile (fs : FS) (p : String) : Bool :=
  match fsGet fs p with
  | Option.some (Entry.file _) => true
  | _ => false

/-- True only for a directory entry at `p`. -/
def isDir (fs : FS) (p : String) : Bool :=
  match fsGet fs p with
  | Option.some Entry.dir => true
  | _ => false

/-- Remove every binding for key `p`. -/
def removeKey : FS → String → FS
  | [], _ => []
  | (k, e) :: rest, p =>
    if k = p then removeKey rest p else (k, e) :: removeKey rest p

/-- Bind key `p` to entry `e` (shadowing and dropping any previous binding). -/
def setKey (fs : FS) (p : String) (e : Entry) : FS := (p, e) :: removeKey fs p

/-- `os.listdir` of the working directory: the names that contain no path
separator, i.e. entries directly at the root. -/
def listdir (fs : FS) : List String :=
  (fs.map Prod.fst).filter (fun p => !(p.data.contains ('/')))

/-- Line 5 of the script: `[f for f in os.listdir('.') if os.path.isfile(f)]`. -/
def rootFilesOf (fs : FS) : List String :=
  (listdir fs).filter (fun f => isFile fs f)

/-- `os.path.dirname`: everything strictly before the last path separator
(empty when there is none). -/
def dirname (p : String) : String :=
  String.mk ((((p.data.reverse).dropWhile (fun c => !(c = ('/')))).drop 1).reverse)

/-- Whether a path starts with the separator (is absolute). -/
def startsWithSlash (p : String) : Bool :=
  match p.data with
  | [] => false
  | c :: _ => c = ('/')

/-- Whether a path ends with the separator. -/
def endsWithSlash (p : String) : Bool :=
  match p.data.getLast? with
  | Option.some c => c = ('/')
  | Option.none => false

/-- `os.path.join a b` for the cases arising here: `b` if it is absolute or
`a` is empty, otherwise `a ++ b` when `a` already ends in the separator,
otherwise `a ++ "/" ++ b`. -/
def osJoin (a b : String) : String :=
  if startsWithSlash b then b
  else if a = "" then b
  else if endsWithSlash a then a ++ b
  else a ++ ("/") ++ b

/-- The OS errors the script can run into (all uncaught in the Python). -/
inductive Err : Type where
  | fileNotFound : Err
  | isADirectory : Err
deriving DecidableEq, Repr

/-- `os.remove p`: deletes a regular file; raises on a directory or a
missing path. -/
def osRemove (fs : FS) (p : String) : Except Err FS :=
  match fsGet fs p with
  | Option.some (Entry.file _) => Except.ok (removeKey fs p)
  | Option.some Entry.dir => Except.error Err.isADirectory
  | Option.none => Except.error Err.fileNotFound

/-- Whether the directory that is to contain a new path exists (the root
itself, named `""`, always exists). -/
def dirOk (fs : FS) (d : String) : Bool :=
  if d = "" then true else isDir fs d

/-- `os.rename src dst`: moves the entry at `src` to `dst`; raises when
`src` is missing, when the parent directory of `dst` does not exist, or
when `dst` is an existing directory. -/
def osRename (fs : FS) (src dst : String) : Except Err FS :=
  match fsGet fs src with
  | Option.none => Except.error Err.fileNotFound
  | Option.some e =>
    if dirOk fs (dirname dst) then
      match fsGet fs dst with
      | Option.some Entry.dir => Except.error Err.isADirectory
      | _ => Except.ok (setKey (removeKey fs src) dst e)
    else Except.error Err.fileNotFound

/-- The hardcoded mapping literal of lines 7-66, in source (dict-insertion)
order. -/
def mapping : List (String × List String) := [
  ("client/src/components/ui/", [
    "accordion.tsx", "alert-dialog.tsx", "alert.tsx", "aspect-ratio.tsx", "avatar.tsx",
    "badge.tsx", "breadcrumb.tsx", "button-group.tsx", "button.tsx", "calendar.tsx",
    "card.tsx", "carousel.tsx", "chart.tsx", "checkbox.tsx", "collapsible.tsx",
    "command.tsx", "context-menu.tsx", "dialog.tsx", "drawer.tsx", "dropdown-menu.tsx",
    "empty.tsx", "field.tsx", "form.tsx", "hover-card.tsx", "input-group.tsx",
    "input-otp.tsx", "input.tsx", "item.tsx", "kbd.tsx", "label.tsx", "menubar.tsx",
    "navigation-menu.tsx", "pagination.tsx", "popover.tsx", "progress.tsx",
    "radio-group.tsx", "resizable.tsx", "scroll-area.tsx", "select.tsx", "separator.tsx",
    "sheet.tsx", "sidebar.tsx", "skeleton.tsx", "slider.tsx", "sonner.tsx", "spinner.tsx",
    "switch.tsx", "table.tsx", "tabs.tsx", "textarea.tsx", "toggle-group.tsx",
    "toggle.tsx", "tooltip.tsx"]),
  ("server/", [
    "accountSecurity.ts", "adminRouter.ts", "auth.comprehensive.test.ts",
    "auth.logout.test.ts", "auth.test.ts", "auth.ts", "authRouter.ts",
    "cryptoWalletRouter.ts", "cryptoWalletSystem.ts", "currencyExchange.ts",
    "db.ts", "dbInit.ts", "degensdenRouter.ts", "degensdenSlots.ts",
    "emailVerification.ts", "gameHistoryTracking.ts", "gameLogic.test.ts",
    "gameLogic.ts", "games.ts", "leaderboardRouter.ts", "leaderboardSystem.ts",
    "liveFeatures.ts", "liveRouter.ts", "osrsDepositWithdraw.ts",
    "osrsGamblingFeatures.ts", "osrsGamblingRouter.ts", "osrsSystem.ts",
    "passwordReset.ts", "provablyFair.ts", "qrcodeSystem.ts", "routers.ts",
    "securityMiddleware.ts", "storage.ts", "trustWalletConfig.ts",
    "trustWalletRouter.ts", "updateModule.ts", "userStatsComprehensive.ts",
    "userStatsRouter.ts", "userStatsSystem.ts", "vipAndLeaderboard.test.ts",
    "vipProgressRouter.ts", "vipProgressSystem.ts", "vipProgressVisualization.ts",
    "wagerSystem.ts", "wallet.comprehensive.test.ts", "wallet.test.ts", "wallet.ts",
    "walletRouter.ts"]),
  ("server/_core/", [
    "advancedRateLimiter.ts", "config.ts", "context.ts", "cookies.ts",
    "dataApi.ts", "env.ts", "errorHandler.ts", "imageGeneration.ts",
    "index.ts", "llm.ts", "logger.ts", "map.ts", "notification.ts",
    "oauth.ts", "sdk.ts", "systemRouter.ts", "trpc.ts", "vite.ts",
    "voiceTranscription.ts"]),
  ("server/_core/types/", [
    "cookie.d.ts", "manusTypes.ts"]),
  ("shared/", [
    "const.ts", "types.ts"]),
  ("shared/_core/", [
    "errors.ts"]),
  ("drizzle/", [
    "schema.ts", "relations.ts"]),
  ("client/src/", [
    "App.tsx", "main.tsx", "index.css"]),
  ("client/", [
    "index.html"]),
  ("client/src/components/", [
    "DashboardLayout.tsx", "DashboardLayoutSkeleton.tsx", "ErrorBoundary.tsx"])]

/-- The loop state: filesystem, the two counters, and the console lines
printed so far. -/
structure St where
  fs : FS
  deleted_count : Nat
  moved_count : Nat
  out : List String
deriving DecidableEq, Repr

/-- The body of the inner loop (lines 72-85) for one `filename` under one
`target_dir`.  On an OS error the state carried in the error has the line
already printed (the script prints before acting) but the filesystem and
counters unchanged. -/
def processOne (target_dir filename : String) (st : St) : Except (St × Err) St :=
  if pathExists st.fs filename then
    let target_path := osJoin target_dir filename
    if pathExists st.fs target_path then
      let printed := st.out ++
        [("Removing duplicate: ") ++ filename ++ (" (already in ") ++ target_dir ++ (")")]
      match osRemove st.fs filename with
      | Except.error e => Except.error ({ st with out := printed }, e)
      | Except.ok fs2 =>
        Except.ok { fs := fs2, deleted_count := st.deleted_count + 1,
                    moved_count := st.moved_count, out := printed }
    else
      let printed := st.out ++ [("Moving ") ++ filename ++ (" to ") ++ target_dir]
      match osRename st.fs filename target_path with
      | Except.error e => Except.error ({ st with out := printed }, e)
      | Except.ok fs2 =>
        Except.ok { fs := fs2, deleted_count := st.deleted_count,
                    moved_count := st.moved_count + 1, out := printed }
  else Except.ok st

/-- The double loop of lines 71-85, flattened over `(target_dir, filename)`
pairs.  An uncaught error halts iteration immediately; the pair component
records whether the run raised. -/
def runPairs : List (String × String) → St → St × Option Err
  | [], st => (st, Option.none)
  | (td, fn) :: rest, st =>
    match processOne td fn st with
    | Except.error (st2, e) => (st2, Option.some e)
    | Except.ok st2 => runPairs rest st2

/-- Flatten a mapping into its iteration sequence of
`(target_dir, filename)` pairs: dict insertion order, then list order. -/
def pairsOf (m : List (String × List String)) : List (String × String) :=
  m.flatMap (fun de => de.2.map (fun fn => (de.1, fn)))

/-- Line 87's summary line. -/
def finishLine (d m : Nat) : String :=
  ("Cleanup finished. Deleted: ") ++ toString d ++ (", Moved: ") ++ toString m

/-- A Python return value: the script's `cleanup` has no `return` statement,
so it returns `None`; the spec's claimed pair of integers would be
`intPair`. -/
inductive PyVal : Type where
  | none : PyVal
  | intPair : Int → Int → PyVal
deriving DecidableEq, Repr

set_option linter.unusedVariables false in
/-- The whole of `cleanup()` (lines 4-87): computes `root_files` (line 5,
never used afterwards), runs the double loop, prints the summary on normal
completion, and returns `None`; an OS error propagates uncaught. -/
def cleanup (fs0 : FS) : St × Except Err PyVal :=
  let root_files := rootFilesOf fs0
  match runPairs (pairsOf mapping) { fs := fs0, deleted_count := 0, moved_count := 0, out := [] } with
  | (st, Option.some e) => (st, Except.error e)
  | (st, Option.none) =>
    ({ st with out := st.out ++ [finishLine st.deleted_count st.moved_count] },
     Except.ok PyVal.none)

/-- `cleanup` with the dead `root_files` binding of line 5 removed;
used to state that the listing influences nothing. -/
def cleanupCore (fs0 : FS) : St × Except Err PyVal :=
  match runPairs (pairsOf mapping) { fs := fs0, deleted_count := 0, moved_count := 0, out := [] } with
  | (st, Option.some e) => (st, Except.error e)
  | (st, Option.none) =>
    ({ st with out := st.out ++ [finishLine st.deleted_count st.moved_count] },
     Except.ok PyVal.none)

/-- The target path of one iteration pair. -/
def dstOf (p : String × String) : String := osJoin p.1 p.2

/-- All keys a run over `ps` may touch: the filenames (sources at the root)
and the target paths. -/
def keysList (ps : List (String × String)) : List String :=
  ps.map Prod.snd ++ ps.map dstOf

/-- The pairs whose filename is present at the root of `fs`. -/
def presentPairs (ps : List (String × String)) (fs : FS) : List (String × String) :=
  ps.filter (fun p => pathExists fs p.2)

/-- The pairs the run deletes: present at the root and at the target. -/
def delPairs (ps : List (String × String)) (fs : FS) : List (String × String) :=
  ps.filter (fun p => pathExists fs p.2 && pathExists fs (dstOf p))

/-- The pairs the run moves: present at the root, absent at the target. -/
def movePairs (ps : List (String × String)) (fs : FS) : List (String × String) :=
  ps.filter (fun p => pathExists fs p.2 && !(pathExists fs (dstOf p)))

/-- The state at line 71: counters zero, nothing printed yet. -/
def initSt (fs : FS) : St :=
  { fs := fs, deleted_count := 0, moved_count := 0, out := [] }

/-- Example filesystem: `button.tsx` at the root, its target directory
present, the target path free. -/
def fsW1 : FS := [("button.tsx", Entry.file 1), ("client/src/components/ui", Entry.dir)]

/-- Example filesystem: `auth.ts` both at the root and at its target path. -/
def fsW2 : FS := [("auth.ts", Entry.file 2), ("server/auth.ts", Entry.file 3)]

/-- Example filesystem: `auth.ts` at the root but no `server` directory, so
the move raises. -/
def fsW3 : FS := [("auth.ts", Entry.file 4)]

/-- Pack a string into a natural number, one base-2^21 digit per character
(2^21 exceeds every Unicode code point).  Duplicate strings encode to
duplicate numbers, so a duplicate-free encoded list certifies a
duplicate-free string list — and comparing numbers is far cheaper for the
kernel than comparing strings. -/
def encodeStr (s : String) : Nat :=
  s.data.foldl (fun n c => n * 2097152 + c.toNat) 0

theorem dstOf_mk (td fn : String) : dstOf (td, fn) = osJoin td fn := rfl

theorem fsGet_removeKey_self (fs : FS) (p : String) :
    fsGet (removeKey fs p) p = Option.none := by
  induction fs with
  | nil => rfl
  | cons kv rest ih =>
    obtain ⟨k, e⟩ := kv
    by_cases h : k = p
    · simp only [removeKey, if_pos h]
      exact ih
    · simp only [removeKey, if_neg h, fsGet, ih]

theorem fsGet_removeKey_ne (fs : FS) (p q : String) (h : q ≠ p) :
    fsGet (removeKey fs p) q = fsGet fs q := by
  induction fs with
  | nil => rfl
  | cons kv rest ih =>
    obtain ⟨k, e⟩ := kv
    by_cases hk : k = p
    · subst hk
      have hkq : ¬(k = q) := fun hh => h hh.symm
      have h1 : removeKey ((k, e) :: rest) k = removeKey rest k := by
        simp [removeKey]
      have h2 : fsGet ((k, e) :: rest) q = fsGet rest q := by
        simp only [fsGet, if_neg hkq]
      rw [h1, h2, ih]
    · simp only [removeKey, if_neg hk, fsGet, ih]

theorem fsGet_setKey_self (fs : FS) (p : String) (e : Entry) :
    fsGet (setKey fs p e) p = Option.some e := by
  simp [setKey, fsGet]

theorem fsGet_setKey_ne (fs : FS) (p q : String) (e : Entry) (h : q ≠ p) :
    fsGet (setKey fs p e) q = fsGet fs q := by
  have : ¬(p = q) := fun hh => h hh.symm
  simp only [setKey, fsGet, if_neg this, fsGet_removeKey_ne fs p q h]

theorem pathExists_eq_false (fs : FS) (p : String) :
    pathExists fs p = false ↔ fsGet fs p = Option.none := by
  unfold pathExists
  cases fsGet fs p <;> simp

theorem osRemove_ok (fs fs2 : FS) (p : String) (h : osRemove fs p = Except.ok fs2) :
    fs2 = removeKey fs p := by
  unfold osRemove at h
  cases hg : fsGet fs p with
  | none => rw [hg] at h; exact Except.noConfusion h
  | some e =>
    cases e with
    | dir => rw [hg] at h; exact Except.noConfusion h
    | file c => rw [hg] at h; exact (Except.ok.inj h).symm

theorem osRename_ok (fs fs2 : FS) (src dst : String)
    (h : osRename fs src dst = Except.ok fs2) :
    ∃ e, fsGet fs src = Option.some e ∧ fs2 = setKey (removeKey fs src) dst e := by
  unfold osRename at h
  split at h
  · exact Except.noConfusion h
  · rename_i e hg
    split at h
    · split at h
      · exact Except.noConfusion h
      · exact ⟨e, hg, (Except.ok.inj h).symm⟩
    · exact Except.noConfusion h

theorem processOne_skip (td fn : String) (st : St)
    (h : pathExists st.fs fn = false) :
    processOne td fn st = Except.ok st := by
  simp [processOne, h]

theorem processOne_del (td fn : String) (st st2 : St)
    (hr : pathExists st.fs fn = true)
    (ht : pathExists st.fs (osJoin td fn) = true)
    (hok : processOne td fn st = Except.ok st2) :
    st2.fs = removeKey st.fs fn ∧
    st2.deleted_count = st.deleted_count + 1 ∧
    st2.moved_count = st.moved_count := by
  simp only [processOne, hr, ht, if_true] at hok
  cases hrem : osRemove st.fs fn with
  | error e => rw [hrem] at hok; exact Except.noConfusion hok
  | ok fs2 =>
    rw [hrem] at hok
    have h2 := osRemove_ok _ _ _ hrem
    rw [← Except.ok.inj hok]
    exact ⟨h2, rfl, rfl⟩

theorem processOne_move (td fn : String) (st st2 : St)
    (hr : pathExists st.fs fn = true)
    (ht : pathExists st.fs (osJoin td fn) = false)
    (hok : processOne td fn st = Except.ok st2) :
    ∃ e, fsGet st.fs fn = Option.some e ∧
      st2.fs = setKey (removeKey st.fs fn) (osJoin td fn) e ∧
      st2.deleted_count = st.deleted_count ∧
      st2.moved_count = st.moved_count + 1 := by
  simp only [processOne, hr, ht, if_true, Bool.false_eq_true, if_false] at hok
  cases hrem : osRename st.fs fn (osJoin td fn) with
  | error e => rw [hrem] at hok; exact Except.noConfusion hok
  | ok fs2 =>
    rw [hrem] at hok
    obtain ⟨e, hg, hfs⟩ := osRename_ok _ _ _ _ hrem
    refine ⟨e, hg, ?_⟩
    rw [← Except.ok.inj hok]
    exact ⟨hfs, rfl, rfl⟩

theorem processOne_err (td fn : String) (st st2 : St) (e : Err)
    (h : processOne td fn st = Except.error (st2, e)) :
    st2.fs = st.fs ∧ st2.deleted_count = st.deleted_count ∧
    st2.moved_count = st.moved_count := by
  unfold processOne at h
  cases hr : pathExists st.fs fn with
  | false => rw [hr] at h; simp at h
  | true =>
    rw [hr] at h
    simp only [if_true] at h
    cases ht : pathExists st.fs (osJoin td fn) with
    | true =>
      rw [ht] at h
      simp only [if_true] at h
      cases hrem : osRemove st.fs fn with
      | error e2 =>
        rw [hrem] at h
        have := Except.error.inj h
        rw [← (Prod.mk.injEq _ _ _ _).mp this |>.1]
        exact ⟨rfl, rfl, rfl⟩
      | ok fs2 => rw [hrem] at h; exact Except.noConfusion h
    | false =>
      rw [ht] at h
      simp only [Bool.false_eq_true, if_false] at h
      cases hrem : osRename st.fs fn (osJoin td fn) with
      | error e2 =>
        rw [hrem] at h
        have := Except.error.inj h
        rw [← (Prod.mk.injEq _ _ _ _).mp this |>.1]
        exact ⟨rfl, rfl, rfl⟩
      | ok fs2 => rw [hrem] at h; exact Except.noConfusion h

theorem processOne_frame (td fn q : String) (st st2 : St)
    (hok : processOne td fn st = Except.ok st2)
    (h1 : q ≠ fn) (h2 : q ≠ osJoin td fn) :
    fsGet st2.fs q = fsGet st.fs q := by
  cases hr : pathExists st.fs fn with
  | false =>
    rw [processOne_skip td fn st hr] at hok
    rw [← Except.ok.inj hok]
  | true =>
    cases ht : pathExists st.fs (osJoin td fn) with
    | true =>
      obtain ⟨hfs, -, -⟩ := processOne_del td fn st st2 hr ht hok
      rw [hfs, fsGet_removeKey_ne _ _ _ h1]
    | false =>
      obtain ⟨e, -, hfs, -, -⟩ := processOne_move td fn st st2 hr ht hok
      rw [hfs, fsGet_setKey_ne _ _ _ _ h2, fsGet_removeKey_ne _ _ _ h1]

theorem runPairs_cons_ok (td fn : String) (rest : List (String × String))
    (st st2 : St) (h : processOne td fn st = Except.ok st2) :
    runPairs ((td, fn) :: rest) st = runPairs rest st2 := by
  simp [runPairs, h]

theorem runPairs_cons_err (td fn : String) (rest : List (String × String))
    (st st2 : St) (e : Err) (h : processOne td fn st = Except.error (st2, e)) :
    runPairs ((td, fn) :: rest) st = (st2, Option.some e) := by
  simp [runPairs, h]

theorem runPairs_frame (ps : List (String × String)) (st : St) (q : String)
    (h : ∀ p ∈ ps, q ≠ p.2 ∧ q ≠ dstOf p) :
    fsGet (runPairs ps st).1.fs q = fsGet st.fs q := by
  induction ps generalizing st with
  | nil => rfl
  | cons p rest ih =>
    obtain ⟨td, fn⟩ := p
    obtain ⟨h1, h2⟩ := h _ (List.mem_cons_self _ _)
    cases hstep : processOne td fn st with
    | error pe =>
      obtain ⟨st2, e⟩ := pe
      rw [runPairs_cons_err td fn rest st st2 e hstep]
      show fsGet st2.fs q = fsGet st.fs q
      rw [(processOne_err td fn st st2 e hstep).1]
    | ok st2 =>
      rw [runPairs_cons_ok td fn rest st st2 hstep]
      rw [ih st2 (fun p hp => h p (List.mem_cons_of_mem _ hp))]
      exact processOne_frame td fn q st st2 hstep h1 h2

theorem keysList_cons (p : String × String) (ps : List (String × String)) :
    keysList (p :: ps) = (p.2 :: ps.map Prod.snd) ++ (dstOf p :: ps.map dstOf) := rfl

theorem keysNodup_tail (p : String × String) (ps : List (String × String))
    (h : (keysList (p :: ps)).Nodup) : (keysList ps).Nodup := by
  rw [keysList_cons] at h
  exact h.sublist ((List.sublist_cons_self _ _).append (List.sublist_cons_self _ _))

theorem keysNodup_head (p : String × String) (ps : List (String × String))
    (h : (keysList (p :: ps)).Nodup) :
    p.2 ≠ dstOf p ∧
    ∀ q ∈ ps, p.2 ≠ q.2 ∧ p.2 ≠ dstOf q ∧ dstOf p ≠ q.2 ∧ dstOf p ≠ dstOf q := by
  rw [keysList_cons, List.nodup_append] at h
  obtain ⟨h1, h2, h3⟩ := h
  constructor
  · intro he
    exact h3 (List.mem_cons_self _ _) (he ▸ List.mem_cons_self _ _)
  · intro q hq
    refine ⟨?_, ?_, ?_, ?_⟩
    · intro he
      exact (List.nodup_cons.mp h1).1 (he ▸ List.mem_map_of_mem _ hq)
    · intro he
      exact h3 (List.mem_cons_self _ _)
        (he ▸ List.mem_cons_of_mem _ (List.mem_map_of_mem _ hq))
    · intro he
      exact h3 (List.mem_cons_of_mem _ (he ▸ List.mem_map_of_mem _ hq))
        (List.mem_cons_self _ _)
    · intro he
      exact (List.nodup_cons.mp h2).1 (he ▸ List.mem_map_of_mem _ hq)

theorem runPairs_all_absent (ps : List (String × String)) (st : St)
    (h : ∀ p ∈ ps, pathExists st.fs p.2 = false) :
    runPairs ps st = (st, Option.none) := by
  induction ps with
  | nil => rfl
  | cons p rest ih =>
    obtain ⟨td, fn⟩ := p
    rw [runPairs_cons_ok td fn rest st st
      (processOne_skip td fn st (h _ (List.mem_cons_self _ _)))]
    exact ih (fun q hq => h q (List.mem_cons_of_mem _ hq))

theorem runPairs_mem (ps : List (String × String)) (st : St) (td fn : String)
    (hnd : (keysList ps).Nodup)
    (hok : (runPairs ps st).2 = Option.none)
    (hmem : (td, fn) ∈ ps) :
    (pathExists st.fs fn = false →
       fsGet (runPairs ps st).1.fs fn = fsGet st.fs fn ∧
       fsGet (runPairs ps st).1.fs (osJoin td fn) = fsGet st.fs (osJoin td fn)) ∧
    (pathExists st.fs fn = true → pathExists st.fs (osJoin td fn) = true →
       fsGet (runPairs ps st).1.fs fn = Option.none ∧
       fsGet (runPairs ps st).1.fs (osJoin td fn) = fsGet st.fs (osJoin td fn)) ∧
    (pathExists st.fs fn = true → pathExists st.fs (osJoin td fn) = false →
       fsGet (runPairs ps st).1.fs fn = Option.none ∧
       fsGet (runPairs ps st).1.fs (osJoin td fn) = fsGet st.fs fn) := by
  induction ps generalizing st with
  | nil => cases hmem
  | cons p rest ih =>
    obtain ⟨tdh, fnh⟩ := p
    cases hstep : processOne tdh fnh st with
    | error pe =>
      obtain ⟨st2, e⟩ := pe
      rw [runPairs_cons_err tdh fnh rest st st2 e hstep] at hok
      exact Option.noConfusion hok
    | ok st2 =>
      rw [runPairs_cons_ok tdh fnh rest st st2 hstep] at hok ⊢
      rcases List.mem_cons.mp hmem with heq | hmem2
      · -- the pair at the head is the pair of interest
        injection heq with he1 he2
        subst he1
        subst he2
        have hkeys := keysNodup_head (td, fn) rest hnd
        have hself : fn ≠ osJoin td fn := hkeys.1
        have hfrF : ∀ q ∈ rest, fn ≠ q.2 ∧ fn ≠ dstOf q :=
          fun q hq => ⟨(hkeys.2 q hq).1, (hkeys.2 q hq).2.1⟩
        have hfrD : ∀ q ∈ rest, osJoin td fn ≠ q.2 ∧ osJoin td fn ≠ dstOf q :=
          fun q hq => ⟨(hkeys.2 q hq).2.2.1, (hkeys.2 q hq).2.2.2⟩
        have hframeF := runPairs_frame rest st2 fn hfrF
        have hframeD := runPairs_frame rest st2 (osJoin td fn) hfrD
        cases hr : pathExists st.fs fn with
        | false =>
          have hst : st2 = st := by
            have hs := processOne_skip td fn st hr
            rw [hstep] at hs
            exact Except.ok.inj hs
          subst hst
          refine ⟨fun _ => ⟨hframeF, hframeD⟩, ?_, ?_⟩
          · intro h' h''
            simp [hr] at h'
          · intro h' h''
            simp [hr] at h'
        | true =>
          cases ht : pathExists st.fs (osJoin td fn) with
          | true =>
            obtain ⟨hfs, -, -⟩ := processOne_del td fn st st2 hr ht hstep
            refine ⟨?_, fun _ _ => ⟨?_, ?_⟩, ?_⟩
            · intro h'
              simp [hr] at h'
            · rw [hframeF, hfs, fsGet_removeKey_self]
            · rw [hframeD, hfs, fsGet_removeKey_ne _ _ _ (Ne.symm hself)]
            · intro h' h''
              simp [ht] at h''
          | false =>
            obtain ⟨e, hg, hfs, -, -⟩ := processOne_move td fn st st2 hr ht hstep
            refine ⟨?_, ?_, fun _ _ => ⟨?_, ?_⟩⟩
            · intro h'
              simp [hr] at h'
            · intro h' h''
              simp [ht] at h''
            · rw [hframeF, hfs, fsGet_setKey_ne _ _ _ _ hself, fsGet_removeKey_self]
            · rw [hframeD, hfs, fsGet_setKey_self, hg]
      · -- the pair of interest is further down
        have hkeys := keysNodup_head (tdh, fnh) rest hnd
        obtain ⟨k1, k2, k3, k4⟩ := hkeys.2 (td, fn) hmem2
        have efn : fsGet st2.fs fn = fsGet st.fs fn :=
          processOne_frame tdh fnh fn st st2 hstep (Ne.symm k1) (Ne.symm k3)
        have edst : fsGet st2.fs (osJoin td fn) = fsGet st.fs (osJoin td fn) :=
          processOne_frame tdh fnh (osJoin td fn) st st2 hstep (Ne.symm k2) (Ne.symm k4)
        have epe1 : pathExists st2.fs fn = pathExists st.fs fn := by
          unfold pathExists
          rw [efn]
        have epe2 : pathExists st2.fs (osJoin td fn) = pathExists st.fs (osJoin td fn) := by
          unfold pathExists
          rw [edst]
        obtain ⟨b1, b2, b3⟩ := ih st2 (keysNodup_tail _ _ hnd) hok hmem2
        refine ⟨?_, ?_, ?_⟩
        · intro h'
          obtain ⟨c1, c2⟩ := b1 (epe1.trans h')
          exact ⟨c1.trans efn, c2.trans edst⟩
        · intro h1 h2
          obtain ⟨c1, c2⟩ := b2 (epe1.trans h1) (epe2.trans h2)
          exact ⟨c1, c2.trans edst⟩
        · intro h1 h2
          obtain ⟨c1, c2⟩ := b3 (epe1.trans h1) (epe2.trans h2)
          exact ⟨c1, c2.trans efn⟩

theorem runPairs_root_gone (ps : List (String × String)) (st : St) (td fn : String)
    (hnd : (keysList ps).Nodup)
    (hok : (runPairs ps st).2 = Option.none)
    (hmem : (td, fn) ∈ ps) :
    fsGet (runPairs ps st).1.fs fn = Option.none := by
  obtain ⟨b1, b2, b3⟩ := runPairs_mem ps st td fn hnd hok hmem
  cases hr : pathExists st.fs fn with
  | false =>
    rw [(b1 hr).1]
    exact (pathExists_eq_false _ _).mp hr
  | true =>
    cases ht : pathExists st.fs (osJoin td fn) with
    | true => exact (b2 hr ht).1
    | false => exact (b3 hr ht).1

theorem delPairs_congr (ps : List (String × String)) (fs fs2 : FS)
    (h : ∀ p ∈ ps, fsGet fs2 p.2 = fsGet fs p.2 ∧ fsGet fs2 (dstOf p) = fsGet fs (dstOf p)) :
    delPairs ps fs2 = delPairs ps fs := by
  unfold delPairs
  exact List.filter_congr (fun p hp => by
    unfold pathExists
    rw [(h p hp).1, (h p hp).2])

theorem movePairs_congr (ps : List (String × String)) (fs fs2 : FS)
    (h : ∀ p ∈ ps, fsGet fs2 p.2 = fsGet fs p.2 ∧ fsGet fs2 (dstOf p) = fsGet fs (dstOf p)) :
    movePairs ps fs2 = movePairs ps fs := by
  unfold movePairs
  exact List.filter_congr (fun p hp => by
    unfold pathExists
    rw [(h p hp).1, (h p hp).2])

theorem runPairs_counts (ps : List (String × String)) (st : St)
    (hnd : (keysList ps).Nodup)
    (hok : (runPairs ps st).2 = Option.none) :
    (runPairs ps st).1.deleted_count = st.deleted_count + (delPairs ps st.fs).length ∧
    (runPairs ps st).1.moved_count = st.moved_count + (movePairs ps st.fs).length := by
  induction ps generalizing st with
  | nil => exact ⟨rfl, rfl⟩
  | cons p rest ih =>
    obtain ⟨td, fn⟩ := p
    cases hstep : processOne td fn st with
    | error pe =>
      obtain ⟨st2, e⟩ := pe
      rw [runPairs_cons_err td fn rest st st2 e hstep] at hok
      exact Option.noConfusion hok
    | ok st2 =>
      rw [runPairs_cons_ok td fn rest st st2 hstep] at hok ⊢
      have hnd' := keysNodup_tail _ _ hnd
      have hkeys := keysNodup_head (td, fn) rest hnd
      have hframe : ∀ q ∈ rest, fsGet st2.fs q.2 = fsGet st.fs q.2 ∧
          fsGet st2.fs (dstOf q) = fsGet st.fs (dstOf q) := by
        intro q hq
        obtain ⟨k1, k2, k3, k4⟩ := hkeys.2 q hq
        exact ⟨processOne_frame td fn q.2 st st2 hstep (Ne.symm k1) (Ne.symm k3),
               processOne_frame td fn (dstOf q) st st2 hstep (Ne.symm k2) (Ne.symm k4)⟩
      have hdel : delPairs rest st2.fs = delPairs rest st.fs :=
        delPairs_congr rest st.fs st2.fs hframe
      have hmov : movePairs rest st2.fs = movePairs rest st.fs :=
        movePairs_congr rest st.fs st2.fs hframe
      obtain ⟨ihd, ihm⟩ := ih st2 hnd' hok
      rw [hdel] at ihd
      rw [hmov] at ihm
      cases hr : pathExists st.fs fn with
      | false =>
        have hst : st2 = st := by
          have hs := processOne_skip td fn st hr
          rw [hstep] at hs
          exact Except.ok.inj hs
        subst hst
        rw [ihd, ihm]
        constructor
        · simp [delPairs, List.filter_cons, hr]
        · simp [movePairs, List.filter_cons, hr]
      | true =>
        cases ht : pathExists st.fs (osJoin td fn) with
        | true =>
          obtain ⟨-, hd1, hm1⟩ := processOne_del td fn st st2 hr ht hstep
          rw [ihd, ihm, hd1, hm1]
          constructor
          · simp only [delPairs, List.filter_cons]
            have : (pathExists st.fs (td, fn).2 && pathExists st.fs (dstOf (td, fn))) = true := by
              simp [dstOf, hr, ht]
            rw [this]
            simp [delPairs]
            omega
          · simp only [movePairs, List.filter_cons]
            have : (pathExists st.fs (td, fn).2 && !(pathExists st.fs (dstOf (td, fn)))) = false := by
              simp [dstOf, hr, ht]
            rw [this]
            simp [movePairs]
        | false =>
          obtain ⟨e, -, -, hd1, hm1⟩ := processOne_move td fn st st2 hr ht hstep
          rw [ihd, ihm, hd1, hm1]
          constructor
          · simp only [delPairs, List.filter_cons]
            have : (pathExists st.fs (td, fn).2 && pathExists st.fs (dstOf (td, fn))) = false := by
              simp [dstOf, hr, ht]
            rw [this]
            simp [delPairs]
          · simp only [movePairs, List.filter_cons]
            have : (pathExists st.fs (td, fn).2 && !(pathExists st.fs (dstOf (td, fn)))) = true := by
              simp [dstOf, hr, ht]
            rw [this]
            simp [movePairs]
            omega

theorem length_del_add_move (ps : List (String × String)) (fs : FS) :
    (delPairs ps fs).length + (movePairs ps fs).length = (presentPairs ps fs).length := by
  induction ps with
  | nil => rfl
  | cons p rest ih =>
    simp only [delPairs, movePairs, presentPairs, List.filter_cons] at ih ⊢
    cases hr : pathExists fs p.2 with
    | false =>
      simp only [hr, Bool.false_and, if_false, Bool.false_eq_true]
      exact ih
    | true =>
      cases ht : pathExists fs (dstOf p) with
      | true =>
        simp only [hr, ht, Bool.true_and, Bool.not_true, if_true, if_false,
          Bool.false_eq_true, List.length_cons]
        omega
      | false =>
        simp only [hr, ht, Bool.true_and, Bool.not_false, if_true, if_false,
          Bool.false_eq_true, List.length_cons]
        omega

theorem runPairs_error_decomp (ps : List (String × String)) (st : St) (e : Err)
    (hnd : (keysList ps).Nodup)
    (herr : (runPairs ps st).2 = Option.some e) :
    ∃ pre p post, ps = pre ++ p :: post ∧
      (∀ q ∈ p :: post, fsGet (runPairs ps st).1.fs q.2 = fsGet st.fs q.2) ∧
      ∃ st1 st2, runPairs pre st = (st1, Option.none) ∧
        processOne p.1 p.2 st1 = Except.error (st2, e) ∧
        runPairs ps st = (st2, Option.some e) := by
  induction ps generalizing st with
  | nil => exact Option.noConfusion herr
  | cons p rest ih =>
    obtain ⟨td, fn⟩ := p
    cases hstep : processOne td fn st with
    | error pe =>
      obtain ⟨st2, e2⟩ := pe
      have hrun := runPairs_cons_err td fn rest st st2 e2 hstep
      rw [hrun] at herr
      have he : e2 = e := Option.some.inj herr
      subst he
      refine ⟨[], (td, fn), rest, rfl, ?_, st, st2, rfl, hstep, hrun⟩
      intro q hq
      rw [hrun]
      show fsGet st2.fs q.2 = fsGet st.fs q.2
      rw [(processOne_err td fn st st2 e2 hstep).1]
    | ok st2 =>
      have hrun := runPairs_cons_ok td fn rest st st2 hstep
      rw [hrun] at herr
      obtain ⟨pre, pp, post, hsplit, huntouched, st1, st3, hpre, hperr, hall⟩ :=
        ih st2 (keysNodup_tail _ _ hnd) herr
      refine ⟨(td, fn) :: pre, pp, post, by rw [List.cons_append, hsplit], ?_,
        st1, st3, ?_, hperr, ?_⟩
      · intro q hq
        rw [hrun, huntouched q hq]
        have hqrest : q ∈ rest := by
          rw [hsplit]
          exact List.mem_append_right _ hq
        obtain ⟨k1, -, k3, -⟩ := (keysNodup_head (td, fn) rest hnd).2 q hqrest
        exact processOne_frame td fn q.2 st st2 hstep (Ne.symm k1) (Ne.symm k3)
      · rw [runPairs_cons_ok td fn pre st st2 hstep, hpre]
      · rw [hrun, hall]

theorem nodup_count_eq_one {α : Type} [BEq α] [LawfulBEq α] {l : List α} {a : α}
    (hnd : l.Nodup) (hmem : a ∈ l) : l.count a = 1 := by
  induction l with
  | nil => cases hmem
  | cons b t ih =>
    rw [List.count_cons]
    rcases List.mem_cons.mp hmem with rfl | hm
    · rw [List.count_eq_zero.mpr (List.nodup_cons.mp hnd).1]
      simp
    · have hba : ¬b = a := by
        intro hba
        subst hba
        exact (List.nodup_cons.mp hnd).1 hm
      have hab : ¬a = b := fun hab => hba hab.symm
      rw [ih (List.nodup_cons.mp hnd).2 hm]
      simp [hba, hab]

theorem cleanup_of_none (fs : FS) (st : St)
    (h : runPairs (pairsOf mapping) (initSt fs) = (st, Option.none)) :
    cleanup fs =
      ({ st with out := st.out ++ [finishLine st.deleted_count st.moved_count] },
       Except.ok PyVal.none) := by
  show (match runPairs (pairsOf mapping) (initSt fs) with
    | (st, Option.some e) => (st, Except.error e)
    | (st, Option.none) =>
      ({ st with out := st.out ++ [finishLine st.deleted_count st.moved_count] },
       Except.ok PyVal.none)) = _
  rw [h]

theorem cleanup_of_some (fs : FS) (st : St) (e : Err)
    (h : runPairs (pairsOf mapping) (initSt fs) = (st, Option.some e)) :
    cleanup fs = (st, Except.error e) := by
  show (match runPairs (pairsOf mapping) (initSt fs) with
    | (st, Option.some e) => (st, Except.error e)
    | (st, Option.none) =>
      ({ st with out := st.out ++ [finishLine st.deleted_count st.moved_count] },
       Except.ok PyVal.none)) = _
  rw [h]

theorem cleanup_components (fs : FS) (v : PyVal)
    (h : (cleanup fs).2 = Except.ok v) :
    (cleanup fs).1.fs = (runPairs (pairsOf mapping) (initSt fs)).1.fs ∧
    (cleanup fs).1.deleted_count = (runPairs (pairsOf mapping) (initSt fs)).1.deleted_count ∧
    (cleanup fs).1.moved_count = (runPairs (pairsOf mapping) (initSt fs)).1.moved_count ∧
    (runPairs (pairsOf mapping) (initSt fs)).2 = Option.none := by
  cases hr : runPairs (pairsOf mapping) (initSt fs) with
  | mk st oe =>
    cases oe with
    | none =>
      simp [cleanup_of_none fs st hr, hr]
    | some e =>
      rw [cleanup_of_some fs st e hr] at h
      exact Except.noConfusion h

theorem cleanup_run_err (fs : FS) (e : Err)
    (h : (cleanup fs).2 = Except.error e) :
    runPairs (pairsOf mapping) (initSt fs) = ((cleanup fs).1, Option.some e) := by
  cases hr : runPairs (pairsOf mapping) (initSt fs) with
  | mk st oe =>
    cases oe with
    | none =>
      rw [cleanup_of_none fs st hr] at h
      exact Except.noConfusion h
    | some e2 =>
      have hc := cleanup_of_some fs st e2 hr
      rw [hc] at h
      have he : e2 = e := Except.error.inj h
      subst he
      rw [hc]

theorem mapping_keys_nodup : (keysList (pairsOf mapping)).Nodup :=
  List.Nodup.of_map encodeStr (by decide)

theorem mapping_pairs_nodup : (pairsOf mapping).Nodup :=
  List.Nodup.of_map Prod.snd (List.nodup_append.mp mapping_keys_nodup).1

/-- C1: a mapping-listed filename present at the root and absent at its
mapped target is, after an error-free run of `cleanup`, present exactly at
the target path (carrying the root entry) and gone from the root, and
`moved_count` counts it exactly once: it equals the number of moved pairs,
a duplicate-free list containing this pair exactly once. -/
theorem claim_C1 (fs : FS) (td fn : String) (v : PyVal)
    (hmem : (td, fn) ∈ pairsOf mapping)
    (hroot : pathExists fs fn = true)
    (htgt : pathExists fs (osJoin td fn) = false)
    (hok : (cleanup fs).2 = Except.ok v) :
    fsGet (cleanup fs).1.fs (osJoin td fn) = fsGet fs fn ∧
    pathExists (cleanup fs).1.fs (osJoin td fn) = true ∧
    fsGet (cleanup fs).1.fs fn = Option.none ∧
    (cleanup fs).1.moved_count = (movePairs (pairsOf mapping) fs).length ∧
    (movePairs (pairsOf mapping) fs).count (td, fn) = 1 := by
  obtain ⟨hfs, hdc, hmc, hrn⟩ := cleanup_components fs v hok
  obtain ⟨-, -, b3⟩ := runPairs_mem (pairsOf mapping) (initSt fs) td fn
    mapping_keys_nodup hrn hmem
  obtain ⟨c1, c2⟩ := b3 hroot htgt
  obtain ⟨-, cm⟩ := runPairs_counts (pairsOf mapping) (initSt fs)
    mapping_keys_nodup hrn
  have hmemMove : (td, fn) ∈ movePairs (pairsOf mapping) fs := by
    unfold movePairs
    exact List.mem_filter.mpr ⟨hmem, by simp [dstOf, hroot, htgt]⟩
  refine ⟨?_, ?_, ?_, ?_, ?_⟩
  · rw [hfs]
    exact c2
  · rw [hfs]
    unfold pathExists
    rw [c2]
    exact hroot
  · rw [hfs]
    exact c1
  · rw [hmc, cm]
    simp [initSt]
  · exact nodup_count_eq_one (mapping_pairs_nodup.filter _) hmemMove

/-- C1 witness: `button.tsx` at the root of `fsW1`, its target free. -/
theorem claim_C1_witness :
    fsGet (cleanup fsW1).1.fs (osJoin ("client/src/components/ui/") ("button.tsx")) =
      fsGet fsW1 ("button.tsx") ∧
    pathExists (cleanup fsW1).1.fs (osJoin ("client/src/components/ui/") ("button.tsx")) = true ∧
    fsGet (cleanup fsW1).1.fs ("button.tsx") = Option.none ∧
    (cleanup fsW1).1.moved_count = (movePairs (pairsOf mapping) fsW1).length ∧
    (movePairs (pairsOf mapping) fsW1).count (("client/src/components/ui/", "button.tsx")) = 1 :=
  claim_C1 fsW1 ("client/src/components/ui/") ("button.tsx") PyVal.none
    (by decide) (by decide) (by decide) rfl

/-- C2: a mapping-listed filename present both at the root and at its
mapped target loses its root copy after an error-free run, the target
entry is unchanged, and `deleted_count` counts it exactly once: it equals
the number of deleted pairs, a duplicate-free list containing this pair
exactly once. -/
theorem claim_C2 (fs : FS) (td fn : String) (v : PyVal)
    (hmem : (td, fn) ∈ pairsOf mapping)
    (hroot : pathExists fs fn = true)
    (htgt : pathExists fs (osJoin td fn) = true)
    (hok : (cleanup fs).2 = Except.ok v) :
    fsGet (cleanup fs).1.fs fn = Option.none ∧
    fsGet (cleanup fs).1.fs (osJoin td fn) = fsGet fs (osJoin td fn) ∧
    (cleanup fs).1.deleted_count = (delPairs (pairsOf mapping) fs).length ∧
    (delPairs (pairsOf mapping) fs).count (td, fn) = 1 := by
  obtain ⟨hfs, hdc, hmc, hrn⟩ := cleanup_components fs v hok
  obtain ⟨-, b2, -⟩ := runPairs_mem (pairsOf mapping) (initSt fs) td fn
    mapping_keys_nodup hrn hmem
  obtain ⟨c1, c2⟩ := b2 hroot htgt
  obtain ⟨cd, -⟩ := runPairs_counts (pairsOf mapping) (initSt fs)
    mapping_keys_nodup hrn
  have hmemDel : (td, fn) ∈ delPairs (pairsOf mapping) fs := by
    unfold delPairs
    exact List.mem_filter.mpr ⟨hmem, by simp [dstOf, hroot, htgt]⟩
  refine ⟨?_, ?_, ?_, ?_⟩
  · rw [hfs]
    exact c1
  · rw [hfs]
    exact c2
  · rw [hdc, cd]
    simp [initSt]
  · exact nodup_count_eq_one (mapping_pairs_nodup.filter _) hmemDel

/-- C2 witness: `auth.ts` at the root of `fsW2` and at `server/auth.ts`. -/
theorem claim_C2_witness :
    fsGet (cleanup fsW2).1.fs ("auth.ts") = Option.none ∧
    fsGet (cleanup fsW2).1.fs (osJoin ("server/") ("auth.ts")) =
      fsGet fsW2 (osJoin ("server/") ("auth.ts")) ∧
    (cleanup fsW2).1.deleted_count = (delPairs (pairsOf mapping) fsW2).length ∧
    (delPairs (pairsOf mapping) fsW2).count (("server/", "auth.ts")) = 1 :=
  claim_C2 fsW2 ("server/") ("auth.ts") PyVal.none
    (by decide) (by decide) (by decide) rfl

/-- C3 as stated is false on the code: on an empty filesystem the run is
error-free, yet a mapping filename (here `accordion.tsx`) exists nowhere
afterwards — in particular not at its target path, although the claim
promises every mapping filename ends up at its target. -/
theorem claim_C3_counterexample :
    (cleanup []).2 = Except.ok PyVal.none ∧
    ¬ (∀ td fn, (td, fn) ∈ pairsOf mapping →
        pathExists (cleanup []).1.fs (osJoin td fn) = true ∧
        fsGet (cleanup []).1.fs fn = Option.none) := by
  refine ⟨rfl, fun h => ?_⟩
  have h2 := (h ("client/src/components/ui/") ("accordion.tsx") (by decide)).1
  have h3 : pathExists (cleanup []).1.fs
      (osJoin ("client/src/components/ui/") ("accordion.tsx")) = false := by decide
  rw [h2] at h3
  exact Bool.noConfusion h3

/-- C3 amended: after a full error-free run, every filename in the mapping
that existed at the root or at its target path beforehand exists at
exactly one location — its target path — and not at the root. -/
theorem claim_C3 (fs : FS) (td fn : String) (v : PyVal)
    (hmem : (td, fn) ∈ pairsOf mapping)
    (hpresent : pathExists fs fn = true ∨ pathExists fs (osJoin td fn) = true)
    (hok : (cleanup fs).2 = Except.ok v) :
    pathExists (cleanup fs).1.fs (osJoin td fn) = true ∧
    fsGet (cleanup fs).1.fs fn = Option.none := by
  obtain ⟨hfs, -, -, hrn⟩ := cleanup_components fs v hok
  obtain ⟨b1, b2, b3⟩ := runPairs_mem (pairsOf mapping) (initSt fs) td fn
    mapping_keys_nodup hrn hmem
  have hgone := runPairs_root_gone (pairsOf mapping) (initSt fs) td fn
    mapping_keys_nodup hrn hmem
  rw [hfs]
  refine ⟨?_, hgone⟩
  cases hr : pathExists fs fn with
  | true =>
    cases ht : pathExists fs (osJoin td fn) with
    | true =>
      unfold pathExists
      rw [(b2 hr ht).2]
      exact ht
    | false =>
      unfold pathExists
      rw [(b3 hr ht).2]
      exact hr
  | false =>
    rcases hpresent with hp | hp
    · rw [hr] at hp
      exact Bool.noConfusion hp
    · unfold pathExists
      rw [(b1 hr).2]
      exact hp

/-- C3 witness: `auth.ts` present at both locations in `fsW2`. -/
theorem claim_C3_witness :
    pathExists (cleanup fsW2).1.fs (osJoin ("server/") ("auth.ts")) = true ∧
    fsGet (cleanup fsW2).1.fs ("auth.ts") = Option.none :=
  claim_C3 fsW2 ("server/") ("auth.ts") PyVal.none (by decide) (Or.inl (by decide)) rfl

/-- C4: for every error-free run, `deleted_count + moved_count` equals the
number of mapping-listed filenames present at the root at invocation, and
the same holds for an error-free run over any permutation of the
iteration sequence — so the sum is independent of iteration order. -/
theorem claim_C4 (fs : FS) (ps : List (String × String)) (v : PyVal)
    (hperm : ps.Perm (pairsOf mapping))
    (hok2 : (runPairs ps (initSt fs)).2 = Option.none)
    (hok : (cleanup fs).2 = Except.ok v) :
    (cleanup fs).1.deleted_count + (cleanup fs).1.moved_count =
      (presentPairs (pairsOf mapping) fs).length ∧
    (runPairs ps (initSt fs)).1.deleted_count + (runPairs ps (initSt fs)).1.moved_count =
      (presentPairs (pairsOf mapping) fs).length := by
  have hkperm : (keysList ps).Perm (keysList (pairsOf mapping)) :=
    (hperm.map Prod.snd).append (hperm.map dstOf)
  have hnd2 : (keysList ps).Nodup := hkperm.nodup_iff.mpr mapping_keys_nodup
  obtain ⟨hfs, hdc, hmc, hrn⟩ := cleanup_components fs v hok
  obtain ⟨cd1, cm1⟩ := runPairs_counts (pairsOf mapping) (initSt fs)
    mapping_keys_nodup hrn
  obtain ⟨cd2, cm2⟩ := runPairs_counts ps (initSt fs) hnd2 hok2
  have hsum1 := length_del_add_move (pairsOf mapping) fs
  have hsum2 := length_del_add_move ps fs
  have hpresent : (presentPairs ps fs).length = (presentPairs (pairsOf mapping) fs).length :=
    List.Perm.length_eq (List.Perm.filter _ hperm)
  constructor
  · rw [hdc, hmc, cd1, cm1]
    simp only [initSt]
    omega
  · rw [cd2, cm2]
    simp only [initSt]
    omega

/-- C4 witness: the identity permutation of the mapping on `fsW2`. -/
theorem claim_C4_witness :
    (cleanup fsW2).1.deleted_count + (cleanup fsW2).1.moved_count =
      (presentPairs (pairsOf mapping) fsW2).length ∧
    (runPairs (pairsOf mapping) (initSt fsW2)).1.deleted_count +
      (runPairs (pairsOf mapping) (initSt fsW2)).1.moved_count =
      (presentPairs (pairsOf mapping) fsW2).length :=
  claim_C4 fsW2 (pairsOf mapping) PyVal.none (List.Perm.refl _) (by decide) rfl

/-- C5: a second run of `cleanup` after an error-free first run mutates
nothing: every mapping filename is gone from the root, so all pairs are
skipped, both counters end at zero, the filesystem component is returned
unchanged, and the run is again error-free. -/
theorem claim_C5 (fs : FS) (v : PyVal)
    (hok : (cleanup fs).2 = Except.ok v) :
    cleanup ((cleanup fs).1.fs) =
      ({ fs := (cleanup fs).1.fs, deleted_count := 0, moved_count := 0,
         out := [finishLine 0 0] }, Except.ok PyVal.none) := by
  obtain ⟨hfs, -, -, hrn⟩ := cleanup_components fs v hok
  have habs : ∀ p ∈ pairsOf mapping,
      pathExists (initSt ((cleanup fs).1.fs)).fs p.2 = false := by
    intro p hp
    obtain ⟨a, b⟩ := p
    have hg := runPairs_root_gone (pairsOf mapping) (initSt fs) a b
      mapping_keys_nodup hrn hp
    show pathExists ((cleanup fs).1.fs) b = false
    rw [hfs]
    exact (pathExists_eq_false _ _).mpr hg
  have hall := runPairs_all_absent (pairsOf mapping)
    (initSt ((cleanup fs).1.fs)) habs
  rw [cleanup_of_none ((cleanup fs).1.fs) (initSt ((cleanup fs).1.fs)) hall]
  simp [initSt]

/-- C5 witness: the first run on `fsW2` deletes the root duplicate; the
second run is a no-op. -/
theorem claim_C5_witness :
    cleanup ((cleanup fsW2).1.fs) =
      ({ fs := (cleanup fsW2).1.fs, deleted_count := 0, moved_count := 0,
         out := [finishLine 0 0] }, Except.ok PyVal.none) :=
  claim_C5 fsW2 PyVal.none rfl

/-- C6: when `cleanup` raises, the iteration sequence splits at the failing
pair: the prefix ran without error, the failing pair's OS call raised the
propagated error leaving the state as it stood, and every pair from the
failing one onwards still has its root entry exactly as at invocation. -/
theorem claim_C6 (fs : FS) (e : Err)
    (herr : (cleanup fs).2 = Except.error e) :
    ∃ pre p post, pairsOf mapping = pre ++ p :: post ∧
      (∀ q ∈ p :: post, fsGet (cleanup fs).1.fs q.2 = fsGet fs q.2) ∧
      ∃ st1 st2, runPairs pre (initSt fs) = (st1, Option.none) ∧
        processOne p.1 p.2 st1 = Except.error (st2, e) ∧
        (cleanup fs).1 = st2 := by
  have hre := cleanup_run_err fs e herr
  obtain ⟨pre, p, post, hsplit, hunt, st1, st2, hpre, hperr, hall⟩ :=
    runPairs_error_decomp (pairsOf mapping) (initSt fs) e mapping_keys_nodup
      (by rw [hre])
  have hfst : (cleanup fs).1 = st2 := by
    rw [hre] at hall
    exact (Prod.mk.injEq _ _ _ _).mp hall |>.1
  refine ⟨pre, p, post, hsplit, ?_, st1, st2, hpre, hperr, hfst⟩
  intro q hq
  have h2 := hunt q hq
  rw [hall] at h2
  rw [hfst]
  exact h2

/-- C6 witness: `fsW3` has `auth.ts` at the root but no `server` directory,
so the move raises `fileNotFound`. -/
theorem claim_C6_witness :
    ∃ pre p post, pairsOf mapping = pre ++ p :: post ∧
      (∀ q ∈ p :: post, fsGet (cleanup fsW3).1.fs q.2 = fsGet fsW3 q.2) ∧
      ∃ st1 st2, runPairs pre (initSt fsW3) = (st1, Option.none) ∧
        processOne p.1 p.2 st1 = Except.error (st2, Err.fileNotFound) ∧
        (cleanup fsW3).1 = st2 :=
  claim_C6 fsW3 Err.fileNotFound rfl

/-- C7 as stated is false on the code: `cleanup()` has no `return`
statement, so on normal completion it returns `None`, never a pair of
integers; on the empty filesystem it demonstrably returns `None` and not
`intPair d m` for any integers. -/
theorem claim_C7_counterexample :
    (cleanup []).2 = Except.ok PyVal.none ∧
    ∀ d m : Int, (cleanup []).2 ≠ Except.ok (PyVal.intPair d m) := by
  refine ⟨rfl, fun d m h => ?_⟩
  rw [show (cleanup []).2 = Except.ok PyVal.none from rfl] at h
  exact PyVal.noConfusion (Except.ok.inj h)

/-- C7 amended: on normal completion `cleanup` returns `None` (not the
counter pair); the counters are reported only through the console, whose
final line is the summary built from `deleted_count` and `moved_count`,
appended after the per-action messages. -/
theorem claim_C7 (fs : FS) (v : PyVal)
    (hok : (cleanup fs).2 = Except.ok v) :
    v = PyVal.none ∧
    (cleanup fs).1.out =
      (runPairs (pairsOf mapping) (initSt fs)).1.out ++
        [finishLine (cleanup fs).1.deleted_count (cleanup fs).1.moved_count] := by
  cases hr : runPairs (pairsOf mapping) (initSt fs) with
  | mk st oe =>
    cases oe with
    | some e =>
      rw [cleanup_of_some fs st e hr] at hok
      exact Except.noConfusion hok
    | none =>
      have hc := cleanup_of_none fs st hr
      rw [hc] at hok
      refine ⟨(Except.ok.inj hok).symm, ?_⟩
      simp [hc]

/-- C7 witness: the empty filesystem. -/
theorem claim_C7_witness :
    PyVal.none = PyVal.none ∧
    (cleanup []).1.out =
      (runPairs (pairsOf mapping) (initSt [])).1.out ++
        [finishLine (cleanup []).1.deleted_count (cleanup []).1.moved_count] :=
  claim_C7 [] PyVal.none rfl

/-- C8: a mapping-listed filename absent from the root is untouched by an
error-free run — both its root and its target locations keep their exact
prior entries — and it is counted by neither counter: each counter equals
the length of its filtered pair list, and the pair belongs to neither. -/
theorem claim_C8 (fs : FS) (td fn : String) (v : PyVal)
    (hmem : (td, fn) ∈ pairsOf mapping)
    (habs : pathExists fs fn = false)
    (hok : (cleanup fs).2 = Except.ok v) :
    fsGet (cleanup fs).1.fs fn = fsGet fs fn ∧
    fsGet (cleanup fs).1.fs (osJoin td fn) = fsGet fs (osJoin td fn) ∧
    (cleanup fs).1.deleted_count = (delPairs (pairsOf mapping) fs).length ∧
    (cleanup fs).1.moved_count = (movePairs (pairsOf mapping) fs).length ∧
    (td, fn) ∉ delPairs (pairsOf mapping) fs ∧
    (td, fn) ∉ movePairs (pairsOf mapping) fs := by
  obtain ⟨hfs, hdc, hmc, hrn⟩ := cleanup_components fs v hok
  obtain ⟨b1, -, -⟩ := runPairs_mem (pairsOf mapping) (initSt fs) td fn
    mapping_keys_nodup hrn hmem
  obtain ⟨c1, c2⟩ := b1 habs
  obtain ⟨cd, cm⟩ := runPairs_counts (pairsOf mapping) (initSt fs)
    mapping_keys_nodup hrn
  refine ⟨?_, ?_, ?_, ?_, ?_, ?_⟩
  · rw [hfs]
    exact c1
  · rw [hfs]
    exact c2
  · rw [hdc, cd]
    simp [initSt]
  · rw [hmc, cm]
    simp [initSt]
  · intro hin
    have h2 := (List.mem_filter.mp hin).2
    simp [habs] at h2
  · intro hin
    have h2 := (List.mem_filter.mp hin).2
    simp [habs] at h2

/-- C8 witness: on the empty filesystem `auth.ts` is absent from the root. -/
theorem claim_C8_witness :
    fsGet (cleanup []).1.fs ("auth.ts") = fsGet [] ("auth.ts") ∧
    fsGet (cleanup []).1.fs (osJoin ("server/") ("auth.ts")) =
      fsGet [] (osJoin ("server/") ("auth.ts")) ∧
    (cleanup []).1.deleted_count = (delPairs (pairsOf mapping) []).length ∧
    (cleanup []).1.moved_count = (movePairs (pairsOf mapping) []).length ∧
    ("server/", "auth.ts") ∉ delPairs (pairsOf mapping) [] ∧
    ("server/", "auth.ts") ∉ movePairs (pairsOf mapping) [] :=
  claim_C8 [] ("server/") ("auth.ts") PyVal.none (by decide) (by decide) rfl

/-- C9: in the hardcoded mapping literal, filenames are unique across the
whole table — no filename appears under two target directories (nor twice
under one). -/
theorem claim_C9 : (mapping.flatMap (fun de => de.2)).Nodup :=
  List.Nodup.of_map encodeStr (by decide)

/-- C10: the per-filename decision is made solely by the `os.path.exists`
check — a filename is skipped exactly when `pathExists` is false, and
`pathExists` is satisfied by a directory entry just as by a file — while
the `root_files` listing of line 5 influences nothing: `cleanup` equals
`cleanupCore`, the same function with the listing removed. -/
theorem claim_C10 :
    (∀ fs, cleanup fs = cleanupCore fs) ∧
    (∀ fs p, fsGet fs p = Option.some Entry.dir → pathExists fs p = true) ∧
    (∀ td fn st, pathExists st.fs fn = false → processOne td fn st = Except.ok st) := by
  refine ⟨fun fs => rfl, fun fs p h => ?_, fun td fn st h => processOne_skip td fn st h⟩
  unfold pathExists
  rw [h]
  rfl

/-- C10 witness: a directory entry satisfies the existence check; a missing
filename is skipped. -/
theorem claim_C10_witness :
    cleanup [(("somedir" : String), Entry.dir)] =
      cleanupCore [(("somedir" : String), Entry.dir)] ∧
    pathExists [(("somedir" : String), Entry.dir)] ("somedir") = true ∧
    processOne ("server/") ("auth.ts") (initSt []) = Except.ok (initSt []) :=
  ⟨claim_C10.1 _, claim_C10.2.1 _ ("somedir") (by decide),
   claim_C10.2.2 ("server/") ("auth.ts") (initSt []) (by decide)⟩

example : dirname ("server/auth.ts") = ("server") := by decide

example : osJoin ("server/") ("auth.ts") = ("server/auth.ts") := by decide

example :
    cleanup [] =
      ({ fs := [], deleted_count := 0, moved_count := 0,
         out := [finishLine 0 0] }, Except.ok PyVal.none) := rfl

end CleanupRoot
